import Mathlib

/-!
Shallow embedding of the txasm transaction compiler and wire codec
(src/serialization.rs, src/instruction.rs, src/transaction.rs, src/error.rs).

Modelling conventions:
* Rust `u8` bytes are `Nat`; where a claim needs byte-validity it is stated
  as an explicit `< 256` side condition.  `[u8; 32]` keys and `[u8; 64]`
  signatures are `List Nat` with a length side condition.
* `usize as u16` casts are modelled as `% 65536`; `usize as u8` / u8
  wrapping arithmetic as `% 256`.
* Writers (`&mut Vec<u8>`) always append, so each serializer is modelled as
  the list of bytes it writes and call sites concatenate in order.
* The read `Cursor` only moves forward, so it is modelled by the remaining
  suffix of the input; the numeric fields of `BufferTooSmall` are therefore
  relative to the remaining input rather than to the start of the buffer.
* A Rust panic (out-of-range slice index) is a distinguished outcome
  `DecErr.sliceOutOfRange`, separate from every returned `TxAsmError`.
* `HashMap` iteration order is unspecified in Rust; the account map is
  modelled as an insertion-ordered association list (keys unique), which
  realises one admissible iteration order.  The compiler sorts the entries
  by the injective key `(priority, key)` before any order-dependent use, so
  the result is independent of the chosen order.
-/

/-- Error enum from src/error.rs (payload strings kept verbatim where the
embedded code constructs them). -/
inductive TxAsmError : Type where
  | SerializationError (msg : String)
  | DeserializationError (msg : String)
  | InvalidInstruction (msg : String)
  | InvalidTransaction (msg : String)
  | EncodingError (msg : String)
  | DecodingError (msg : String)
  | SignatureError (msg : String)
  | AccountError (msg : String)
  | FeeCalculationError (msg : String)
  | OptimizationError (msg : String)
  | BufferTooSmall (needed available : Nat)
  | InvalidPublicKey (msg : String)
  | SolanaError (msg : String)

/-- Outcome of running a fallible Rust decode path: a returned error, or a
panic caused by an unchecked slice index. -/
inductive DecErr : Type where
  | failure (e : TxAsmError)
  | sliceOutOfRange

/-- Result type of the decoders: value or error/panic. -/
abbrev DRes (α : Type) : Type := Except DecErr α

/-- src/serialization.rs `encode_compact_u16` (argument is the `u16` value,
already reduced mod 65536 by the caller's cast). -/
def encode_compact_u16 (value : Nat) : List Nat :=
  if value ≤ 0x7f then
    [value]
  else if value ≤ 0x3fff then
    [(value &&& 0x7f) ||| 0x80, value >>> 7]
  else
    [(value &&& 0x7f) ||| 0x80, ((value >>> 7) &&& 0x7f) ||| 0x80, value >>> 14]

/-- Loop body of src/serialization.rs `decode_compact_u16`: `fuel` counts the
remaining iterations of `for i in 0..3`; `value` and `shift` are the loop
state; the u16 shift truncates mod 2^16 as in Rust. -/
def decodeCompactU16Go : Nat → Nat → Nat → List Nat → DRes (Nat × List Nat)
  | 0, _, _, _ =>
      .error (.failure (.DeserializationError "Invalid compact-u16 encoding"))
  | Nat.succ fuel, value, shift, data =>
      match data with
      | [] => .error (.failure (.DeserializationError "Unexpected end of buffer"))
      | b :: rest =>
          let value' := value ||| (((b &&& 0x7f) <<< shift) % 65536)
          if b &&& 0x80 = 0 then .ok (value', rest)
          else decodeCompactU16Go fuel value' (shift + 7) rest

/-- src/serialization.rs `decode_compact_u16`. -/
def decode_compact_u16 (data : List Nat) : DRes (Nat × List Nat) :=
  decodeCompactU16Go 3 0 0 data

/-- src/serialization.rs `encode_u8`. -/
def encode_u8 (value : Nat) : List Nat := [value]

/-- src/serialization.rs `decode_u8`. -/
def decode_u8 (data : List Nat) : DRes (Nat × List Nat) :=
  match data with
  | [] => .error (.failure (.BufferTooSmall 1 0))
  | b :: rest => .ok (b, rest)

/-- src/serialization.rs `encode_pubkey` (writes the 32 key bytes). -/
def encode_pubkey (pubkey : List Nat) : List Nat := pubkey

/-- src/serialization.rs `decode_pubkey`. -/
def decode_pubkey (data : List Nat) : DRes (List Nat × List Nat) :=
  if data.length < 32 then
    .error (.failure (.BufferTooSmall 32 data.length))
  else
    .ok (data.take 32, data.drop 32)

/-- src/transaction.rs `MessageHeader` (three u8 fields). -/
structure MessageHeader : Type where
  num_required_signatures : Nat
  num_readonly_signed_accounts : Nat
  num_readonly_unsigned_accounts : Nat

/-- src/transaction.rs `impl ByteSerialize for MessageHeader`:
three `encode_u8` writes. -/
def MessageHeader.serialize_bytes (h : MessageHeader) : List Nat :=
  encode_u8 h.num_required_signatures ++
    encode_u8 h.num_readonly_signed_accounts ++
    encode_u8 h.num_readonly_unsigned_accounts

/-- src/transaction.rs `MessageHeader::byte_size`. -/
def MessageHeader.byte_size (_ : MessageHeader) : Nat := 3

/-- src/transaction.rs `CompiledInstruction`. -/
structure CompiledInstruction : Type where
  program_id_index : Nat
  account_indices : List Nat
  data : List Nat

/-- src/transaction.rs `impl ByteSerialize for CompiledInstruction`
(`as u16` casts modelled as `% 65536`; the per-index `encode_u8` loop
writes the index bytes in order). -/
def CompiledInstruction.serialize_bytes (i : CompiledInstruction) : List Nat :=
  encode_u8 i.program_id_index ++
    encode_compact_u16 (i.account_indices.length % 65536) ++
    i.account_indices ++
    encode_compact_u16 (i.data.length % 65536) ++
    i.data

/-- src/transaction.rs `CompiledInstruction::byte_size`. -/
def CompiledInstruction.byte_size (i : CompiledInstruction) : Nat :=
  let accounts_len_size := if i.account_indices.length ≤ 0x7f then 1 else 2
  let data_len_size :=
    if i.data.length ≤ 0x7f then 1 else if i.data.length ≤ 0x3fff then 2 else 3
  1 + accounts_len_size + i.account_indices.length + data_len_size + i.data.length

/-- src/transaction.rs `CompiledMessage` (keys and blockhash are byte lists,
32 bytes when well formed). -/
structure CompiledMessage : Type where
  header : MessageHeader
  account_keys : List (List Nat)
  recent_blockhash : List Nat
  instructions : List CompiledInstruction

/-- src/transaction.rs `impl ByteSerialize for CompiledMessage`. -/
def CompiledMessage.serialize_bytes (m : CompiledMessage) : List Nat :=
  m.header.serialize_bytes ++
    encode_compact_u16 (m.account_keys.length % 65536) ++
    (m.account_keys.map encode_pubkey).flatten ++
    encode_pubkey m.recent_blockhash ++
    encode_compact_u16 (m.instructions.length % 65536) ++
    (m.instructions.map CompiledInstruction.serialize_bytes).flatten

/-- src/transaction.rs `CompiledMessage::byte_size`. -/
def CompiledMessage.byte_size (m : CompiledMessage) : Nat :=
  let keys_len_size := if m.account_keys.length ≤ 0x7f then 1 else 2
  let instructions_len_size := if m.instructions.length ≤ 0x7f then 1 else 2
  m.header.byte_size + keys_len_size + m.account_keys.length * 32 + 32 +
    instructions_len_size +
    (m.instructions.map CompiledInstruction.byte_size).sum

/-- src/transaction.rs `CompiledTransaction`. -/
structure CompiledTransaction : Type where
  message : CompiledMessage
  signatures : List (List Nat)

/-- src/transaction.rs `CompiledTransaction::serialize` (the writes into the
`Vec` never fail, so the `Result` is modelled as the written bytes). -/
def CompiledTransaction.serialize (t : CompiledTransaction) : List Nat :=
  encode_compact_u16 (t.signatures.length % 65536) ++
    t.signatures.flatten ++
    t.message.serialize_bytes

/-- Signature-reading loop of `CompiledTransaction::deserialize`: reads
`n` 64-byte signatures, with the `position + 64 > data.len()` check. -/
def decodeSignatures : Nat → List Nat → DRes (List (List Nat) × List Nat)
  | 0, data => .ok ([], data)
  | Nat.succ n, data =>
      if data.length < 64 then
        .error (.failure (.BufferTooSmall 64 data.length))
      else do
        let (sigs, rest) ← decodeSignatures n (data.drop 64)
        .ok (data.take 64 :: sigs, rest)

/-- Account-key reading loop of `CompiledTransaction::deserialize`. -/
def decodeAccountKeys : Nat → List Nat → DRes (List (List Nat) × List Nat)
  | 0, data => .ok ([], data)
  | Nat.succ n, data => do
      let (k, d1) ← decode_pubkey data
      let (ks, rest) ← decodeAccountKeys n d1
      .ok (k :: ks, rest)

/-- Per-instruction account-index loop of `CompiledTransaction::deserialize`. -/
def decodeAccountIndices : Nat → List Nat → DRes (List Nat × List Nat)
  | 0, data => .ok ([], data)
  | Nat.succ n, data => do
      let (i, d1) ← decode_u8 data
      let (is, rest) ← decodeAccountIndices n d1
      .ok (i :: is, rest)

/-- Instruction-reading loop of `CompiledTransaction::deserialize`.  The
payload read `data_bytes[position..position + data_len]` has no bounds
check in the source, so a declared length beyond the remaining bytes is the
panic outcome `sliceOutOfRange`, not a returned error. -/
def decodeInstructions : Nat → List Nat → DRes (List CompiledInstruction × List Nat)
  | 0, data => .ok ([], data)
  | Nat.succ n, data => do
      let (pid, d1) ← decode_u8 data
      let (numAccounts, d2) ← decode_compact_u16 d1
      let (idxs, d3) ← decodeAccountIndices numAccounts d2
      let (dataLen, d4) ← decode_compact_u16 d3
      if d4.length < dataLen then
        .error .sliceOutOfRange
      else do
        let (ixs, rest) ← decodeInstructions n (d4.drop dataLen)
        .ok (⟨pid, idxs, d4.take dataLen⟩ :: ixs, rest)

/-- src/transaction.rs `CompiledTransaction::deserialize`. -/
def CompiledTransaction.deserialize (bytes : List Nat) : DRes CompiledTransaction := do
  let (numSignatures, d1) ← decode_compact_u16 bytes
  let (signatures, d2) ← decodeSignatures numSignatures d1
  let (nrs, d3) ← decode_u8 d2
  let (nros, d4) ← decode_u8 d3
  let (nrou, d5) ← decode_u8 d4
  let (numKeys, d6) ← decode_compact_u16 d5
  let (account_keys, d7) ← decodeAccountKeys numKeys d6
  let (recent_blockhash, d8) ← decode_pubkey d7
  let (numInstructions, d9) ← decode_compact_u16 d8
  let (instructions, _) ← decodeInstructions numInstructions d9
  .ok ⟨⟨⟨nrs, nros, nrou⟩, account_keys, recent_blockhash, instructions⟩, signatures⟩

/-- src/instruction.rs `AccountMeta`. -/
structure AccountMeta : Type where
  pubkey : List Nat
  is_signer : Bool
  is_writable : Bool
  deriving DecidableEq

/-- src/instruction.rs `RawInstruction`. -/
structure RawInstruction : Type where
  program_id : List Nat
  accounts : List AccountMeta
  data : List Nat
  deriving DecidableEq

/-- src/transaction.rs `TransactionBuilder` state. -/
structure TransactionBuilder : Type where
  instructions : List RawInstruction
  payer : Option (List Nat)
  recent_blockhash : Option (List Nat)

/-- The account map `HashMap<[u8; 32], (bool, bool)>`, modelled as an
insertion-ordered association list with unique keys (see header note). -/
abbrev AccountMap : Type := List (List Nat × (Bool × Bool))

/-- `HashMap::get` on an association list with unique keys. -/
def alistLookup {β : Type} : List (List Nat × β) → List Nat → Option β
  | [], _ => none
  | (k, v) :: rest, key => if k = key then some v else alistLookup rest key

/-- `map.entry(k).or_insert(v)`: keep an existing entry, else append one. -/
def orInsert (m : AccountMap) (k : List Nat) (v : Bool × Bool) : AccountMap :=
  match alistLookup m k with
  | some _ => m
  | none => m ++ [(k, v)]

/-- The per-account-reference merge in `TransactionBuilder::compile`:
`entry.or_insert((false,false))`, then `entry.0 |= is_signer`,
`entry.1 |= is_writable`. -/
def mergeAccount (m : AccountMap) (a : AccountMeta) : AccountMap :=
  match alistLookup m a.pubkey with
  | some _ =>
      m.map fun e =>
        if e.1 = a.pubkey then (e.1, (e.2.1 || a.is_signer, e.2.2 || a.is_writable)) else e
  | none => m ++ [(a.pubkey, (a.is_signer, a.is_writable))]

/-- Processing of one instruction inside `TransactionBuilder::compile`:
program id inserted readonly, then every account merged. -/
def processInstruction (m : AccountMap) (ix : RawInstruction) : AccountMap :=
  ix.accounts.foldl mergeAccount (orInsert m ix.program_id (false, false))

/-- The account-collection phase of `TransactionBuilder::compile`: the map
seeded with the payer as writable signer, then all instructions processed. -/
def buildAccountMap (payer : List Nat) (ixs : List RawInstruction) : AccountMap :=
  ixs.foldl processInstruction [(payer, (true, true))]

/-- Sort priority from `TransactionBuilder::compile`'s `sort_by_key`. -/
def priorityOf (is_signer is_writable : Bool) : Nat :=
  match is_signer, is_writable with
  | true, true => 0
  | true, false => 1
  | false, true => 2
  | false, false => 3

/-- Strict lexicographic order on raw keys (Rust `[u8; 32]` `Ord`). -/
def keyLt : List Nat → List Nat → Bool
  | _, [] => false
  | [], _ :: _ => true
  | a :: as, b :: bs => a < b || (a = b && keyLt as bs)

/-- Total order on `(key, is_signer, is_writable)` entries realising the
Rust sort key `(priority, key)`. -/
def accLe (x y : List Nat × Bool × Bool) : Bool :=
  priorityOf x.2.1 x.2.2 < priorityOf y.2.1 y.2.2 ||
    (priorityOf x.2.1 x.2.2 = priorityOf y.2.1 y.2.2 && (keyLt x.1 y.1 || x.1 = y.1))

/-- Ordered insertion used by the modelled sort. -/
def orderedInsert (a : List Nat × Bool × Bool) :
    List (List Nat × Bool × Bool) → List (List Nat × Bool × Bool)
  | [] => [a]
  | b :: bs => if accLe a b then a :: b :: bs else b :: orderedInsert a bs

/-- Sort modelling `account_keys.sort_by_key(|(key, s, w)| (priority, key))`:
the sort key is injective on the map's distinct keys, so every correct sort
(of any iteration order of the map) produces this list. -/
def sortAccounts : List (List Nat × Bool × Bool) → List (List Nat × Bool × Bool)
  | [] => []
  | a :: as => orderedInsert a (sortAccounts as)

/-- The ordered `(key, is_signer, is_writable)` entries of a compilation. -/
def sortedAccounts (payer : List Nat) (ixs : List RawInstruction) :
    List (List Nat × Bool × Bool) :=
  sortAccounts ((buildAccountMap payer ixs).map fun e => (e.1, e.2.1, e.2.2))

/-- The `account_index_map` built from `enumerate()`: each key is paired
with its position `i as u8`, i.e. `i % 256`; `i` starts at the given
offset. -/
def accountIndexMapGo (i : Nat) : List (List Nat) → List (List Nat × Nat)
  | [] => []
  | k :: ks => (k, i % 256) :: accountIndexMapGo (i + 1) ks

/-- src/transaction.rs: `account_index_map` of the sorted keys. -/
def accountIndexMap (keys : List (List Nat)) : List (List Nat × Nat) :=
  accountIndexMapGo 0 keys

/-- The per-instruction account-index resolution
(`collect::<Result<Vec<_>>>` short-circuits on the first failure). -/
def resolveIndices (idx : List (List Nat × Nat)) :
    List AccountMeta → Except TxAsmError (List Nat)
  | [] => .ok []
  | a :: rest =>
      match alistLookup idx a.pubkey with
      | none => .error (.InvalidInstruction "Account not found in accounts")
      | some i => do
          let is ← resolveIndices idx rest
          .ok (i :: is)

/-- Compilation of one raw instruction into a `CompiledInstruction`. -/
def compileOne (idx : List (List Nat × Nat)) (ix : RawInstruction) :
    Except TxAsmError CompiledInstruction :=
  match alistLookup idx ix.program_id with
  | none => .error (.InvalidInstruction "Program ID not found in accounts")
  | some pi => do
      let ais ← resolveIndices idx ix.accounts
      .ok ⟨pi, ais, ix.data⟩

/-- The instruction-compilation phase (`collect::<Result<Vec<_>>>`). -/
def compileAll (idx : List (List Nat × Nat)) :
    List RawInstruction → Except TxAsmError (List CompiledInstruction)
  | [] => .ok []
  | ix :: rest => do
      let ci ← compileOne idx ix
      let cis ← compileAll idx rest
      .ok (ci :: cis)

/-- Header derivation in `TransactionBuilder::compile`: the class counts are
`count() as u8` and `num_required_signatures` is their `u8` sum, i.e.
arithmetic mod 256. -/
def compileHeader (account_keys : List (List Nat × Bool × Bool)) : MessageHeader :=
  let num_writable_signers := (account_keys.countP fun e => e.2.1 && e.2.2) % 256
  let num_readonly_signers := (account_keys.countP fun e => e.2.1 && !e.2.2) % 256
  let num_readonly_unsigned := (account_keys.countP fun e => !e.2.1 && !e.2.2) % 256
  ⟨(num_writable_signers + num_readonly_signers) % 256,
    num_readonly_signers, num_readonly_unsigned⟩

/-- src/transaction.rs `TransactionBuilder::compile` (the `ok_or_else` early
returns and a failing `collect` are the explicit error branches). -/
def TransactionBuilder.compile (b : TransactionBuilder) :
    Except TxAsmError CompiledMessage :=
  match b.payer with
  | none => .error (.InvalidTransaction "Payer not set")
  | some payer =>
    match b.recent_blockhash with
    | none => .error (.InvalidTransaction "Recent blockhash not set")
    | some recent_blockhash =>
      if b.instructions = [] then
        .error (.InvalidTransaction "No instructions provided")
      else
        match compileAll
            (accountIndexMap ((sortedAccounts payer b.instructions).map (·.1)))
            b.instructions with
        | .error e => .error e
        | .ok compiled_instructions =>
            .ok ⟨compileHeader (sortedAccounts payer b.instructions),
              (sortedAccounts payer b.instructions).map (·.1),
              recent_blockhash, compiled_instructions⟩

/-- src/transaction.rs `TransactionBuilder::build_unsigned`. -/
def TransactionBuilder.build_unsigned (b : TransactionBuilder) :
    Except TxAsmError CompiledTransaction :=
  match b.compile with
  | .error e => .error e
  | .ok message =>
      .ok ⟨message,
        List.replicate message.header.num_required_signatures (List.replicate 64 0)⟩

/-- Validity of a `CompiledTransaction` for the wire format: every
length-prefixed sequence is within the representable range of the
compact-u16 scheme and every fixed-size field has its fixed size. -/
def ValidTransaction (t : CompiledTransaction) : Prop :=
  t.signatures.length < 65536 ∧
  (∀ s ∈ t.signatures, s.length = 64) ∧
  t.message.account_keys.length < 65536 ∧
  (∀ k ∈ t.message.account_keys, k.length = 32) ∧
  t.message.recent_blockhash.length = 32 ∧
  t.message.instructions.length < 65536 ∧
  (∀ ix ∈ t.message.instructions,
    ix.account_indices.length < 65536 ∧ ix.data.length < 65536)

def pk (n : Nat) : List Nat := n / 256 :: n % 256 :: List.replicate 30 0

def b3metas : List AccountMeta :=
  (List.range 255).map (fun j => ⟨pk (j + 1), false, false⟩)

def b3 : TransactionBuilder :=
  ⟨[⟨pk 256, b3metas, []⟩], some (pk 0), some (List.replicate 32 9)⟩

def m5 : CompiledMessage :=
  ⟨⟨0, 0, 0⟩, [], List.replicate 32 0, [⟨0, List.replicate 16384 0, []⟩]⟩

def b4 : TransactionBuilder :=
  ⟨[⟨List.replicate 32 3, [⟨List.replicate 32 1, true, true⟩], []⟩],
    some (List.replicate 32 2), some (List.replicate 32 0)⟩

def c9buf : List Nat :=
  [0, 0, 0, 0, 1] ++ List.replicate 32 7 ++ List.replicate 32 8 ++ [1, 5, 0, 0]

def payerW : List Nat := List.replicate 32 1

def programW : List Nat := List.replicate 32 2

def blockhashW : List Nat := List.replicate 32 3

def bW : TransactionBuilder :=
  ⟨[⟨programW, [⟨payerW, false, false⟩], [42]⟩], some payerW, some blockhashW⟩

def mW : CompiledMessage :=
  ⟨⟨1, 0, 1⟩, [payerW, programW], blockhashW, [⟨1, [0], [42]⟩]⟩

def tW : CompiledTransaction := ⟨mW, [List.replicate 64 0]⟩

instance (t : CompiledTransaction) : Decidable (ValidTransaction t) := by
  unfold ValidTransaction
  infer_instance

theorem and_127_eq_mod (x : Nat) : x &&& 127 = x % 128 := by
  have h : (127 : Nat) = 2 ^ 7 - 1 := by norm_num
  rw [h, Nat.and_pow_two_sub_one_eq_mod]

theorem and_128_of_lt : ∀ x : Nat, x < 128 → x &&& 128 = 0 := by decide

theorem or_128_and_128 : ∀ r : Nat, r < 128 → (r ||| 128) &&& 128 = 128 := by decide

theorem or_128_and_127 : ∀ r : Nat, r < 128 → (r ||| 128) &&& 127 = r := by decide

theorem or_eq_add_of_lt {r q : Nat} (hr : r < 128) : r ||| q * 128 = r + q * 128 := by
  have h := Nat.mul_add_lt_is_or (i := 7) (b := r) (by omega) q
  have h2 : (2 : Nat) ^ 7 = 128 := by norm_num
  rw [h2] at h
  rw [Nat.or_comm, Nat.mul_comm, ← h, Nat.mul_comm]
  omega

theorem go_succ (fuel value shift b : Nat) (rest : List Nat) :
    decodeCompactU16Go (fuel + 1) value shift (b :: rest) =
      (if b &&& 0x80 = 0 then .ok (value ||| (((b &&& 0x7f) <<< shift) % 65536), rest)
       else decodeCompactU16Go fuel (value ||| (((b &&& 0x7f) <<< shift) % 65536))
              (shift + 7) rest) := rfl

/-- One-byte decode at an explicit byte. -/
theorem decode_one (b : Nat) (hb : b < 128) (rest : List Nat) :
    decode_compact_u16 (b :: rest) = .ok (b, rest) := by
  unfold decode_compact_u16
  rw [show (3 : Nat) = 2 + 1 from rfl, go_succ, if_pos (and_128_of_lt _ hb)]
  have : 0 ||| ((b &&& 127) <<< 0 % 65536) = b := by
    rw [and_127_eq_mod, Nat.shiftLeft_zero, Nat.mod_eq_of_lt (by omega), Nat.zero_or]
    omega
  rw [this]

/-- Two-byte decode at explicit 7-bit pieces. -/
theorem decode_two (r q : Nat) (hr : r < 128) (hq : q < 128) (rest : List Nat) :
    decode_compact_u16 ((r ||| 128) :: q :: rest) = .ok (r + q * 128, rest) := by
  unfold decode_compact_u16
  rw [show (3 : Nat) = 2 + 1 from rfl, go_succ,
    if_neg (by rw [or_128_and_128 _ hr]; omega)]
  have e1 : 0 ||| (((r ||| 128) &&& 127) <<< 0 % 65536) = r := by
    rw [or_128_and_127 _ hr, Nat.shiftLeft_zero, Nat.mod_eq_of_lt (by omega), Nat.zero_or]
  rw [e1, show (2 : Nat) = 1 + 1 from rfl, go_succ, if_pos (and_128_of_lt _ hq)]
  have e2 : r ||| ((q &&& 127) <<< (0 + 7) % 65536) = r + q * 128 := by
    rw [and_127_eq_mod, Nat.mod_eq_of_lt hq, Nat.zero_add, Nat.shiftLeft_eq,
      Nat.mod_eq_of_lt (by norm_num; omega)]
    rw [show (2 : Nat) ^ 7 = 128 from by norm_num]
    exact or_eq_add_of_lt hr
  rw [e2]

/-- Three-byte decode at explicit 7-bit pieces. -/
theorem decode_three (r q c : Nat) (hr : r < 128) (hq : q < 128) (hc : c < 4)
    (rest : List Nat) :
    decode_compact_u16 ((r ||| 128) :: (q ||| 128) :: c :: rest) =
      .ok (r + q * 128 + c * 16384, rest) := by
  unfold decode_compact_u16
  rw [show (3 : Nat) = 2 + 1 from rfl, go_succ,
    if_neg (by rw [or_128_and_128 _ hr]; omega)]
  have e1 : 0 ||| (((r ||| 128) &&& 127) <<< 0 % 65536) = r := by
    rw [or_128_and_127 _ hr, Nat.shiftLeft_zero, Nat.mod_eq_of_lt (by omega), Nat.zero_or]
  rw [e1, show (2 : Nat) = 1 + 1 from rfl, go_succ,
    if_neg (by rw [or_128_and_128 _ hq]; omega)]
  have e2 : r ||| (((q ||| 128) &&& 127) <<< (0 + 7) % 65536) = r + q * 128 := by
    rw [or_128_and_127 _ hq, Nat.zero_add, Nat.shiftLeft_eq,
      Nat.mod_eq_of_lt (by norm_num; omega)]
    rw [show (2 : Nat) ^ 7 = 128 from by norm_num]
    exact or_eq_add_of_lt hr
  rw [e2, show (1 : Nat) = 0 + 1 from rfl, go_succ, if_pos (and_128_of_lt _ (by omega))]
  have e3 : r + q * 128 ||| ((c &&& 127) <<< (0 + 7 + 7) % 65536) =
      r + q * 128 + c * 16384 := by
    rw [and_127_eq_mod, Nat.mod_eq_of_lt (by omega), Nat.shiftLeft_eq,
      Nat.mod_eq_of_lt (by omega)]
    have h := Nat.mul_add_lt_is_or (i := 14) (b := r + q * 128) (by omega) c
    have h2 : (2 : Nat) ^ 14 = 16384 := by norm_num
    rw [h2] at h
    have h3 : (2 : Nat) ^ (0 + 7 + 7) = 16384 := by norm_num
    rw [h3, Nat.or_comm, Nat.mul_comm c 16384, ← h]
    omega
  rw [e3]

/-- Round-trip of the compact-u16 codec, with arbitrary trailing bytes. -/
theorem decode_encode_compact_u16 (v : Nat) (hv : v < 65536) (rest : List Nat) :
    decode_compact_u16 (encode_compact_u16 v ++ rest) = .ok (v, rest) := by
  unfold encode_compact_u16
  rcases le_or_lt v 127 with h1 | h1
  · rw [if_pos h1, List.singleton_append, decode_one v (by omega)]
  · rcases le_or_lt v 16383 with h2 | h2
    · rw [if_neg (by omega), if_pos h2, List.cons_append, List.singleton_append]
      rw [and_127_eq_mod, show v >>> 7 = v / 128 from by rw [Nat.shiftRight_eq_div_pow]]
      rw [decode_two (v % 128) (v / 128) (by omega) (by omega)]
      congr 2
      omega
    · rw [if_neg (by omega), if_neg (by omega), List.cons_append, List.cons_append,
        List.singleton_append]
      rw [and_127_eq_mod, and_127_eq_mod,
        show v >>> 7 = v / 128 from by rw [Nat.shiftRight_eq_div_pow],
        show v >>> 14 = v / 16384 from by rw [Nat.shiftRight_eq_div_pow]]
      rw [decode_three (v % 128) (v / 128 % 128) (v / 16384) (by omega) (by omega) (by omega)]
      congr 2
      omega

theorem dbind_ok {α β : Type} (a : α) (f : α → DRes β) :
    (Except.ok a >>= f : DRes β) = f a := rfl

theorem decode_u8_cons (b : Nat) (rest : List Nat) :
    decode_u8 (b :: rest) = .ok (b, rest) := rfl

theorem decodeAccountIndices_roundtrip (idxs rest : List Nat) :
    decodeAccountIndices idxs.length (idxs ++ rest) = .ok (idxs, rest) := by
  induction idxs with
  | nil => simp [decodeAccountIndices]
  | cons i is ih =>
      simp only [List.length_cons, List.cons_append, decodeAccountIndices,
        decode_u8_cons, dbind_ok, ih]

theorem decode_pubkey_roundtrip (k rest : List Nat) (hk : k.length = 32) :
    decode_pubkey (k ++ rest) = .ok (k, rest) := by
  unfold decode_pubkey
  rw [if_neg (by rw [List.length_append, hk]; omega)]
  rw [List.take_left' hk, List.drop_left' hk]

theorem decodeSignatures_roundtrip (sigs : List (List Nat)) (rest : List Nat)
    (h : ∀ s ∈ sigs, s.length = 64) :
    decodeSignatures sigs.length (sigs.flatten ++ rest) = .ok (sigs, rest) := by
  induction sigs with
  | nil => simp [decodeSignatures]
  | cons s ss ih =>
      have hs : s.length = 64 := h s (by simp)
      have hrest : ∀ x ∈ ss, x.length = 64 := fun x hx => h x (by simp [hx])
      simp only [List.length_cons, List.flatten_cons, List.append_assoc, decodeSignatures]
      rw [if_neg (by rw [List.length_append, hs]; omega)]
      rw [List.take_left' hs, List.drop_left' hs]
      simp only [ih hrest, dbind_ok]

theorem decodeAccountKeys_roundtrip (keys : List (List Nat)) (rest : List Nat)
    (h : ∀ k ∈ keys, k.length = 32) :
    decodeAccountKeys keys.length (keys.flatten ++ rest) = .ok (keys, rest) := by
  induction keys with
  | nil => simp [decodeAccountKeys]
  | cons k ks ih =>
      have hk : k.length = 32 := h k (by simp)
      have hrest : ∀ x ∈ ks, x.length = 32 := fun x hx => h x (by simp [hx])
      simp only [List.length_cons, List.flatten_cons, List.append_assoc, decodeAccountKeys]
      rw [decode_pubkey_roundtrip k _ hk]
      simp only [dbind_ok, ih hrest]

theorem decodeInstructions_roundtrip (ixs : List CompiledInstruction)
    (rest : List Nat)
    (h : ∀ ix ∈ ixs, ix.account_indices.length < 65536 ∧ ix.data.length < 65536) :
    decodeInstructions ixs.length
      ((ixs.map CompiledInstruction.serialize_bytes).flatten ++ rest) =
      .ok (ixs, rest) := by
  induction ixs with
  | nil => simp [decodeInstructions]
  | cons ix ixs ih =>
      obtain ⟨hai, hd⟩ := h ix (by simp)
      have hrest : ∀ x ∈ ixs, x.account_indices.length < 65536 ∧ x.data.length < 65536 :=
        fun x hx => h x (by simp [hx])
      simp only [List.length_cons, List.map_cons, List.flatten_cons, List.append_assoc,
        decodeInstructions, CompiledInstruction.serialize_bytes, encode_u8,
        List.singleton_append, List.cons_append, List.nil_append]
      rw [decode_u8_cons]
      simp only [dbind_ok]
      rw [Nat.mod_eq_of_lt hai, decode_encode_compact_u16 _ hai]
      simp only [dbind_ok]
      rw [decodeAccountIndices_roundtrip]
      simp only [dbind_ok]
      rw [Nat.mod_eq_of_lt hd, decode_encode_compact_u16 _ hd]
      simp only [dbind_ok]
      rw [if_neg (by rw [List.length_append]; omega)]
      rw [List.take_left' rfl, List.drop_left' rfl]
      simp only [ih hrest, dbind_ok]

/-- Claim C1: for every valid transaction, deserializing its serialization gives
back the same transaction. -/
theorem deserialize_serialize_roundtrip (t : CompiledTransaction)
    (h : ValidTransaction t) :
    CompiledTransaction.deserialize t.serialize = .ok t := by
  obtain ⟨hsl, hs64, hkl, hk32, hbh, hixl, hix⟩ := h
  obtain ⟨⟨⟨nrs, nros, nrou⟩, keys, bh, ixs⟩, sigs⟩ := t
  simp only [CompiledTransaction.serialize, CompiledMessage.serialize_bytes,
    MessageHeader.serialize_bytes, encode_u8, encode_pubkey, List.append_assoc,
    List.singleton_append, List.cons_append, List.nil_append] at *
  unfold CompiledTransaction.deserialize
  rw [Nat.mod_eq_of_lt hsl, decode_encode_compact_u16 _ hsl]
  simp only [dbind_ok]
  rw [decodeSignatures_roundtrip _ _ hs64]
  simp only [dbind_ok]
  rw [decode_u8_cons]
  simp only [dbind_ok]
  rw [decode_u8_cons]
  simp only [dbind_ok]
  rw [decode_u8_cons]
  simp only [dbind_ok]
  rw [Nat.mod_eq_of_lt hkl, decode_encode_compact_u16 _ hkl]
  simp only [dbind_ok]
  have hmapid : keys.map encode_pubkey = keys := List.map_id' keys
  rw [show (keys.map encode_pubkey).flatten = keys.flatten from by rw [hmapid]]
  rw [decodeAccountKeys_roundtrip _ _ hk32]
  simp only [dbind_ok]
  rw [decode_pubkey_roundtrip _ _ hbh]
  simp only [dbind_ok]
  rw [Nat.mod_eq_of_lt hixl, decode_encode_compact_u16 _ hixl]
  simp only [dbind_ok]
  rw [← List.append_nil (List.map CompiledInstruction.serialize_bytes ixs).flatten,
    decodeInstructions_roundtrip _ _ hix]
  simp only [dbind_ok]

theorem alistLookup_append_of_some {β : Type} (m l : List (List Nat × β))
    (k : List Nat) (v : β) (h : alistLookup m k = some v) :
    alistLookup (m ++ l) k = some v := by
  induction m with
  | nil => simp [alistLookup] at h
  | cons e m ih =>
      rw [List.cons_append]
      unfold alistLookup at h ⊢
      split at h
      · exact h ▸ (by rw [if_pos (by assumption)])
      · rw [if_neg (by assumption)]
        exact ih h

theorem alistLookup_orInsert_of_some (m : AccountMap) (k k' : List Nat)
    (v : Bool × Bool) (v' : Bool × Bool) (h : alistLookup m k = some v) :
    alistLookup (orInsert m k' v') k = some v := by
  unfold orInsert
  split
  · exact h
  · exact alistLookup_append_of_some _ _ _ _ h

theorem alistLookup_map_merge (m : AccountMap) (tgt p : List Nat) (s w : Bool) :
    alistLookup
      (m.map fun e =>
        if e.1 = tgt then (e.1, (e.2.1 || s, e.2.2 || w)) else e) p =
      (alistLookup m p).map fun v => if p = tgt then (v.1 || s, v.2 || w) else v := by
  induction m with
  | nil => simp [alistLookup]
  | cons e m ih =>
      simp only [List.map_cons]
      by_cases ht : e.1 = tgt
      · rw [if_pos ht]
        by_cases hp : e.1 = p
        · simp only [alistLookup, if_pos hp, Option.map_some']
          rw [if_pos (by rw [← hp, ht])]
        · simp only [alistLookup, if_neg hp]
          exact ih
      · rw [if_neg ht]
        by_cases hp : e.1 = p
        · simp only [alistLookup, if_pos hp, Option.map_some']
          rw [if_neg (by rw [← hp]; exact ht)]
        · simp only [alistLookup, if_neg hp]
          exact ih

theorem alistLookup_merge_payer (m : AccountMap) (a : AccountMeta)
    (p : List Nat) (h : alistLookup m p = some (true, true)) :
    alistLookup (mergeAccount m a) p = some (true, true) := by
  unfold mergeAccount
  split
  · rw [alistLookup_map_merge, h]
    split <;> simp
  · exact alistLookup_append_of_some _ _ _ _ h

theorem alistLookup_foldl_merge_payer (accs : List AccountMeta) (m : AccountMap)
    (p : List Nat) (h : alistLookup m p = some (true, true)) :
    alistLookup (accs.foldl mergeAccount m) p = some (true, true) := by
  induction accs generalizing m with
  | nil => exact h
  | cons a accs ih =>
      rw [List.foldl_cons]
      exact ih _ (alistLookup_merge_payer _ _ _ h)

theorem alistLookup_process_payer (m : AccountMap) (ix : RawInstruction)
    (p : List Nat) (h : alistLookup m p = some (true, true)) :
    alistLookup (processInstruction m ix) p = some (true, true) := by
  unfold processInstruction
  exact alistLookup_foldl_merge_payer _ _ _ (alistLookup_orInsert_of_some _ _ _ _ _ h)

/-- Claim C7: after seeding and processing every instruction the payer's
merged flags are still `(true, true)`. -/
theorem buildAccountMap_payer_flags (payer : List Nat) (ixs : List RawInstruction) :
    alistLookup (buildAccountMap payer ixs) payer = some (true, true) := by
  unfold buildAccountMap
  have hbase : alistLookup [(payer, (true, true))] payer = some (true, true) := by
    simp [alistLookup]
  generalize [(payer, (true, true))] = m at hbase ⊢
  induction ixs generalizing m with
  | nil => exact hbase
  | cons ix ixs ih =>
      rw [List.foldl_cons]
      exact ih _ (alistLookup_process_payer _ _ _ hbase)

theorem alistLookup_append_of_none {β : Type} (m l : List (List Nat × β))
    (k : List Nat) (h : alistLookup m k = none) :
    alistLookup (m ++ l) k = alistLookup l k := by
  induction m with
  | nil => simp
  | cons e m ih =>
      obtain ⟨ek, ev⟩ := e
      rw [List.cons_append]
      simp only [alistLookup] at h ⊢
      by_cases hk : ek = k
      · rw [if_pos hk] at h
        cases h
      · rw [if_neg hk] at h ⊢
        exact ih h

theorem isSome_orInsert_self (m : AccountMap) (k : List Nat) (v : Bool × Bool) :
    (alistLookup (orInsert m k v) k).isSome := by
  unfold orInsert
  split
  · simp_all
  · rw [alistLookup_append_of_none _ _ _ (by assumption)]
    simp [alistLookup]

theorem isSome_orInsert_mono (m : AccountMap) (k k' : List Nat) (v : Bool × Bool)
    (h : (alistLookup m k).isSome) : (alistLookup (orInsert m k' v) k).isSome := by
  unfold orInsert
  split
  · exact h
  · obtain ⟨w, hw⟩ := Option.isSome_iff_exists.mp h
    rw [alistLookup_append_of_some _ _ _ _ hw]
    rfl

theorem isSome_merge_mono (m : AccountMap) (a : AccountMeta) (k : List Nat)
    (h : (alistLookup m k).isSome) : (alistLookup (mergeAccount m a) k).isSome := by
  unfold mergeAccount
  split
  · rw [alistLookup_map_merge]
    simpa using h
  · obtain ⟨w, hw⟩ := Option.isSome_iff_exists.mp h
    rw [alistLookup_append_of_some _ _ _ _ hw]
    rfl

theorem isSome_merge_self (m : AccountMap) (a : AccountMeta) :
    (alistLookup (mergeAccount m a) a.pubkey).isSome := by
  unfold mergeAccount
  split
  · rw [alistLookup_map_merge]
    simp_all
  · rw [alistLookup_append_of_none _ _ _ (by assumption)]
    simp [alistLookup]

theorem isSome_foldl_merge_mono (accs : List AccountMeta) (m : AccountMap)
    (k : List Nat) (h : (alistLookup m k).isSome) :
    (alistLookup (accs.foldl mergeAccount m) k).isSome := by
  induction accs generalizing m with
  | nil => exact h
  | cons a accs ih =>
      rw [List.foldl_cons]
      exact ih _ (isSome_merge_mono _ _ _ h)

theorem isSome_foldl_merge_self (accs : List AccountMeta) (m : AccountMap)
    (a : AccountMeta) (ha : a ∈ accs) :
    (alistLookup (accs.foldl mergeAccount m) a.pubkey).isSome := by
  induction accs generalizing m with
  | nil => cases ha
  | cons a0 accs ih =>
      rw [List.foldl_cons]
      rcases List.mem_cons.mp ha with h0 | h0
      · subst h0
        exact isSome_foldl_merge_mono _ _ _ (isSome_merge_self _ _)
      · exact ih _ h0

theorem isSome_process_mono (m : AccountMap) (ix : RawInstruction) (k : List Nat)
    (h : (alistLookup m k).isSome) :
    (alistLookup (processInstruction m ix) k).isSome := by
  unfold processInstruction
  exact isSome_foldl_merge_mono _ _ _ (isSome_orInsert_mono _ _ _ _ h)

theorem isSome_process_program (m : AccountMap) (ix : RawInstruction) :
    (alistLookup (processInstruction m ix) ix.program_id).isSome := by
  unfold processInstruction
  exact isSome_foldl_merge_mono _ _ _ (isSome_orInsert_self _ _ _)

theorem isSome_process_account (m : AccountMap) (ix : RawInstruction)
    (a : AccountMeta) (ha : a ∈ ix.accounts) :
    (alistLookup (processInstruction m ix) a.pubkey).isSome := by
  unfold processInstruction
  exact isSome_foldl_merge_self _ _ _ ha

theorem isSome_foldl_process_mono (ixs : List RawInstruction) (m : AccountMap)
    (k : List Nat) (h : (alistLookup m k).isSome) :
    (alistLookup (ixs.foldl processInstruction m) k).isSome := by
  induction ixs generalizing m with
  | nil => exact h
  | cons ix ixs ih =>
      rw [List.foldl_cons]
      exact ih _ (isSome_process_mono _ _ _ h)

theorem isSome_foldl_process_of_mem (ixs : List RawInstruction) (m : AccountMap)
    (ix : RawInstruction) (hix : ix ∈ ixs) :
    (alistLookup (ixs.foldl processInstruction m) ix.program_id).isSome ∧
      ∀ a ∈ ix.accounts,
        (alistLookup (ixs.foldl processInstruction m) a.pubkey).isSome := by
  induction ixs generalizing m with
  | nil => cases hix
  | cons ix0 ixs ih =>
      rw [List.foldl_cons]
      rcases List.mem_cons.mp hix with h0 | h0
      · subst h0
        exact ⟨isSome_foldl_process_mono _ _ _ (isSome_process_program _ _),
          fun a ha => isSome_foldl_process_mono _ _ _ (isSome_process_account _ _ _ ha)⟩
      · exact ih _ h0

/-- Every program id and account key of every instruction is present in the
account map after registration. -/
theorem buildAccountMap_mem (payer : List Nat) (ixs : List RawInstruction)
    (ix : RawInstruction) (hix : ix ∈ ixs) :
    (alistLookup (buildAccountMap payer ixs) ix.program_id).isSome ∧
      ∀ a ∈ ix.accounts, (alistLookup (buildAccountMap payer ixs) a.pubkey).isSome :=
  isSome_foldl_process_of_mem _ _ _ hix

theorem mem_of_alistLookup_isSome {β : Type} (m : List (List Nat × β))
    (k : List Nat) (h : (alistLookup m k).isSome) : ∃ v, (k, v) ∈ m := by
  induction m with
  | nil => simp [alistLookup] at h
  | cons e m ih =>
      obtain ⟨ek, ev⟩ := e
      simp only [alistLookup] at h
      by_cases hk : ek = k
      · exact ⟨ev, by simp [hk]⟩
      · rw [if_neg hk] at h
        obtain ⟨v, hv⟩ := ih h
        exact ⟨v, by simp [hv]⟩

theorem mem_orderedInsert (a x : List Nat × Bool × Bool)
    (l : List (List Nat × Bool × Bool)) (h : x ∈ l ∨ x = a) :
    x ∈ orderedInsert a l := by
  induction l with
  | nil =>
      rcases h with h | h
      · cases h
      · simp [orderedInsert, h]
  | cons b bs ih =>
      unfold orderedInsert
      split
      · rcases h with h | h
        · exact List.mem_cons_of_mem _ h
        · subst h
          exact List.mem_cons_self _ _
      · rcases h with h | h
        · rcases List.mem_cons.mp h with h0 | h0
          · subst h0
            exact List.mem_cons_self _ _
          · exact List.mem_cons_of_mem _ (ih (Or.inl h0))
        · exact List.mem_cons_of_mem _ (ih (Or.inr h))

theorem mem_sortAccounts (x : List Nat × Bool × Bool)
    (l : List (List Nat × Bool × Bool)) (h : x ∈ l) : x ∈ sortAccounts l := by
  induction l with
  | nil => cases h
  | cons a as ih =>
      unfold sortAccounts
      rcases List.mem_cons.mp h with h0 | h0
      · exact mem_orderedInsert _ _ _ (Or.inr h0)
      · exact mem_orderedInsert _ _ _ (Or.inl (ih h0))

/-- Keys present in the account map appear among the ordered account keys. -/
theorem mem_sorted_keys_of_isSome (payer : List Nat) (ixs : List RawInstruction)
    (k : List Nat) (h : (alistLookup (buildAccountMap payer ixs) k).isSome) :
    k ∈ (sortedAccounts payer ixs).map (·.1) := by
  obtain ⟨v, hv⟩ := mem_of_alistLookup_isSome _ _ h
  unfold sortedAccounts
  exact List.mem_map.mpr ⟨(k, v.1, v.2),
    mem_sortAccounts _ _ (List.mem_map.mpr ⟨(k, v), hv, rfl⟩), rfl⟩

theorem alistLookup_indexMapGo_of_mem (keys : List (List Nat)) (k : List Nat)
    (i : Nat) (h : k ∈ keys) :
    ∃ j, j < keys.length ∧
      alistLookup (accountIndexMapGo i keys) k = some ((i + j) % 256) := by
  induction keys generalizing i with
  | nil => cases h
  | cons k0 ks ih =>
      unfold accountIndexMapGo
      by_cases hk : k0 = k
      · exact ⟨0, by simp, by simp [alistLookup, hk]⟩
      · rcases List.mem_cons.mp h with h0 | h0
        · exact absurd h0.symm hk
        · obtain ⟨j, hj, hl⟩ := ih (i + 1) h0
          refine ⟨j + 1, by simpa using Nat.succ_lt_succ hj, ?_⟩
          simp only [alistLookup, if_neg hk]
          rw [hl]
          congr 2
          omega

theorem alistLookup_indexMapGo_some (keys : List (List Nat)) (k : List Nat)
    (i v : Nat) (h : alistLookup (accountIndexMapGo i keys) k = some v) :
    ∃ j, j < keys.length ∧ v = (i + j) % 256 := by
  induction keys generalizing i with
  | nil => simp [accountIndexMapGo, alistLookup] at h
  | cons k0 ks ih =>
      unfold accountIndexMapGo at h
      simp only [alistLookup] at h
      by_cases hk : k0 = k
      · rw [if_pos hk] at h
        refine ⟨0, by simp, ?_⟩
        have hv : i % 256 = v := Option.some.inj h
        omega
      · rw [if_neg hk] at h
        obtain ⟨j, hj, hv⟩ := ih (i + 1) h
        refine ⟨j + 1, by simpa using Nat.succ_lt_succ hj, ?_⟩
        rw [hv]
        congr 1
        omega

/-- A resolved index is always a strict position bound for the key list. -/
theorem indexMap_lookup_lt (keys : List (List Nat)) (k : List Nat) (v : Nat)
    (h : alistLookup (accountIndexMap keys) k = some v) : v < keys.length := by
  obtain ⟨j, hj, hv⟩ := alistLookup_indexMapGo_some keys k 0 v h
  have : v ≤ j := by rw [hv]; simpa using Nat.mod_le j 256
  omega

theorem resolveIndices_ok (idx : List (List Nat × Nat)) (accs : List AccountMeta)
    (h : ∀ a ∈ accs, (alistLookup idx a.pubkey).isSome) :
    ∃ is, resolveIndices idx accs = .ok is := by
  induction accs with
  | nil => exact ⟨[], rfl⟩
  | cons a accs ih =>
      obtain ⟨v, hv⟩ := Option.isSome_iff_exists.mp (h a (by simp))
      obtain ⟨is, his⟩ := ih fun x hx => h x (by simp [hx])
      refine ⟨v :: is, ?_⟩
      unfold resolveIndices
      rw [hv, his]
      rfl

theorem compileOne_ok (idx : List (List Nat × Nat)) (ix : RawInstruction)
    (hp : (alistLookup idx ix.program_id).isSome)
    (ha : ∀ a ∈ ix.accounts, (alistLookup idx a.pubkey).isSome) :
    ∃ ci, compileOne idx ix = .ok ci := by
  obtain ⟨pi, hpi⟩ := Option.isSome_iff_exists.mp hp
  obtain ⟨is, his⟩ := resolveIndices_ok idx ix.accounts ha
  refine ⟨⟨pi, is, ix.data⟩, ?_⟩
  unfold compileOne
  rw [hpi, his]
  rfl

theorem compileAll_ok (idx : List (List Nat × Nat)) (ixs : List RawInstruction)
    (h : ∀ ix ∈ ixs, (alistLookup idx ix.program_id).isSome ∧
      ∀ a ∈ ix.accounts, (alistLookup idx a.pubkey).isSome) :
    ∃ cis, compileAll idx ixs = .ok cis := by
  induction ixs with
  | nil => exact ⟨[], rfl⟩
  | cons ix ixs ih =>
      obtain ⟨hp, ha⟩ := h ix (by simp)
      obtain ⟨ci, hci⟩ := compileOne_ok idx ix hp ha
      obtain ⟨cis, hcis⟩ := ih fun x hx => h x (by simp [hx])
      refine ⟨ci :: cis, ?_⟩
      unfold compileAll
      rw [hci, hcis]
      rfl

/-- With payer and recency token set and a nonempty instruction list,
compilation always succeeds (the defensive lookup errors are unreachable). -/
theorem compile_ok (b : TransactionBuilder) (p rb : List Nat)
    (hp : b.payer = some p) (hrb : b.recent_blockhash = some rb)
    (hne : b.instructions ≠ []) :
    ∃ m, b.compile = .ok m ∧
      m.header = compileHeader (sortedAccounts p b.instructions) ∧
      m.account_keys = (sortedAccounts p b.instructions).map (·.1) := by
  have hmem : ∀ ix ∈ b.instructions,
      (alistLookup (accountIndexMap ((sortedAccounts p b.instructions).map (·.1)))
        ix.program_id).isSome ∧
      ∀ a ∈ ix.accounts,
        (alistLookup (accountIndexMap ((sortedAccounts p b.instructions).map (·.1)))
          a.pubkey).isSome := by
    intro ix hix
    obtain ⟨hpg, hacc⟩ := buildAccountMap_mem p b.instructions ix hix
    constructor
    · obtain ⟨j, _, hj⟩ := alistLookup_indexMapGo_of_mem _ _ 0
        (mem_sorted_keys_of_isSome p b.instructions _ hpg)
      simp [accountIndexMap, hj]
    · intro a ha
      obtain ⟨j, _, hj⟩ := alistLookup_indexMapGo_of_mem _ _ 0
        (mem_sorted_keys_of_isSome p b.instructions _ (hacc a ha))
      simp [accountIndexMap, hj]
  obtain ⟨cis, hcis⟩ := compileAll_ok _ _ hmem
  refine ⟨⟨compileHeader (sortedAccounts p b.instructions),
    (sortedAccounts p b.instructions).map (·.1), rb, cis⟩, ?_, rfl, rfl⟩
  unfold TransactionBuilder.compile
  rw [hp, hrb]
  dsimp only
  rw [if_neg hne, hcis]

theorem resolveIndices_ok_inv (idx : List (List Nat × Nat))
    (accs : List AccountMeta) (is : List Nat)
    (h : resolveIndices idx accs = .ok is) :
    ∀ v ∈ is, ∃ k, alistLookup idx k = some v := by
  induction accs generalizing is with
  | nil =>
      cases h
      simp
  | cons a accs ih =>
      unfold resolveIndices at h
      cases hl : alistLookup idx a.pubkey with
      | none => rw [hl] at h; cases h
      | some v0 =>
          rw [hl] at h
          cases hr : resolveIndices idx accs with
          | error e => rw [hr] at h; cases h
          | ok is0 =>
              rw [hr] at h
              cases h
              intro v hv
              rcases List.mem_cons.mp hv with h0 | h0
              · exact ⟨a.pubkey, h0 ▸ hl⟩
              · exact ih is0 hr v h0

theorem compileOne_ok_inv (idx : List (List Nat × Nat)) (ix : RawInstruction)
    (ci : CompiledInstruction) (h : compileOne idx ix = .ok ci) :
    alistLookup idx ix.program_id = some ci.program_id_index ∧
      resolveIndices idx ix.accounts = .ok ci.account_indices := by
  unfold compileOne at h
  cases hl : alistLookup idx ix.program_id with
  | none => rw [hl] at h; cases h
  | some pi =>
      rw [hl] at h
      cases hr : resolveIndices idx ix.accounts with
      | error e => rw [hr] at h; cases h
      | ok is =>
          rw [hr] at h
          cases h
          refine ⟨?_, ?_⟩ <;> simp [hl, hr]

theorem compileAll_ok_inv (idx : List (List Nat × Nat))
    (ixs : List RawInstruction) (cis : List CompiledInstruction)
    (h : compileAll idx ixs = .ok cis) :
    ∀ ci ∈ cis, ∃ ix, compileOne idx ix = .ok ci := by
  induction ixs generalizing cis with
  | nil =>
      cases h
      simp
  | cons ix ixs ih =>
      unfold compileAll at h
      cases h1 : compileOne idx ix with
      | error e => rw [h1] at h; cases h
      | ok ci0 =>
          rw [h1] at h
          cases h2 : compileAll idx ixs with
          | error e => rw [h2] at h; cases h
          | ok cis0 =>
              rw [h2] at h
              cases h
              intro ci hci
              rcases List.mem_cons.mp hci with h0 | h0
              · exact ⟨ix, h0 ▸ h1⟩
              · exact ih cis0 h2 ci h0

/-- Inversion of a successful compilation: the inputs were present and the
output fields are the pipeline's values. -/
theorem compile_ok_inv (b : TransactionBuilder) (m : CompiledMessage)
    (hc : b.compile = .ok m) :
    ∃ p rb, b.payer = some p ∧ b.recent_blockhash = some rb ∧
      b.instructions ≠ [] ∧
      m.header = compileHeader (sortedAccounts p b.instructions) ∧
      m.account_keys = (sortedAccounts p b.instructions).map (·.1) ∧
      m.recent_blockhash = rb ∧
      compileAll (accountIndexMap ((sortedAccounts p b.instructions).map (·.1)))
        b.instructions = .ok m.instructions := by
  unfold TransactionBuilder.compile at hc
  cases hp : b.payer with
  | none => rw [hp] at hc; cases hc
  | some p =>
      rw [hp] at hc
      cases hrb : b.recent_blockhash with
      | none => rw [hrb] at hc; cases hc
      | some rb =>
          rw [hrb] at hc
          dsimp only at hc
          by_cases hne : b.instructions = []
          · rw [if_pos hne] at hc; cases hc
          · rw [if_neg hne] at hc
            cases hall : compileAll
                (accountIndexMap ((sortedAccounts p b.instructions).map (·.1)))
                b.instructions with
            | error e => rw [hall] at hc; cases hc
            | ok cis =>
                rw [hall] at hc
                cases hc
                exact ⟨p, rb, rfl, rfl, hne, rfl, rfl, rfl, hall⟩

theorem pk_inj {i j : Nat} (h : pk i = pk j) : i = j := by
  unfold pk at h
  simp only [List.cons.injEq] at h
  omega

theorem length_orderedInsert (a : List Nat × Bool × Bool)
    (l : List (List Nat × Bool × Bool)) :
    (orderedInsert a l).length = l.length + 1 := by
  induction l with
  | nil => rfl
  | cons b bs ih =>
      unfold orderedInsert
      split
      · simp
      · simp [ih]

theorem countP_orderedInsert (p : List Nat × Bool × Bool → Bool)
    (a : List Nat × Bool × Bool) (l : List (List Nat × Bool × Bool)) :
    (orderedInsert a l).countP p = l.countP p + (if p a then 1 else 0) := by
  induction l with
  | nil => simp [orderedInsert, List.countP_cons]
  | cons b bs ih =>
      unfold orderedInsert
      split
      · simp only [List.countP_cons]
      · simp only [List.countP_cons, ih]
        split_ifs <;> omega

theorem length_sortAccounts (l : List (List Nat × Bool × Bool)) :
    (sortAccounts l).length = l.length := by
  induction l with
  | nil => rfl
  | cons a as ih =>
      unfold sortAccounts
      rw [length_orderedInsert, ih, List.length_cons]

theorem countP_sortAccounts (p : List Nat × Bool × Bool → Bool)
    (l : List (List Nat × Bool × Bool)) :
    (sortAccounts l).countP p = l.countP p := by
  induction l with
  | nil => rfl
  | cons a as ih =>
      unfold sortAccounts
      rw [countP_orderedInsert, ih, List.countP_cons]

/-- Merging a run of brand-new, pairwise-distinct keys just appends them in
order with their own flags. -/
theorem foldl_merge_all_new (accs : List AccountMeta) (m : AccountMap)
    (hnew : ∀ a ∈ accs, alistLookup m a.pubkey = none)
    (hnodup : (accs.map (·.pubkey)).Nodup) :
    accs.foldl mergeAccount m =
      m ++ accs.map (fun a => (a.pubkey, (a.is_signer, a.is_writable))) := by
  induction accs generalizing m with
  | nil => simp
  | cons a rest ih =>
      rw [List.foldl_cons]
      have hm : mergeAccount m a = m ++ [(a.pubkey, (a.is_signer, a.is_writable))] := by
        unfold mergeAccount
        rw [hnew a (by simp)]
      simp only [List.map_cons, List.nodup_cons] at hnodup
      have hnew2 : ∀ x ∈ rest,
          alistLookup (m ++ [(a.pubkey, (a.is_signer, a.is_writable))]) x.pubkey = none := by
        intro x hx
        rw [alistLookup_append_of_none _ _ _ (hnew x (by simp [hx]))]
        have hne : a.pubkey ≠ x.pubkey := by
          intro he
          exact hnodup.1 (he ▸ List.mem_map_of_mem (·.pubkey) hx)
        simp [alistLookup, hne]
      rw [hm, ih _ hnew2 hnodup.2, List.append_assoc, List.singleton_append,
        List.map_cons]

/-- The account map of the 257-key input `b3`: the payer seed, the program
id, then the 255 fresh metas appended in order. -/
theorem buildAccountMap_b3 :
    buildAccountMap (pk 0) b3.instructions =
      [(pk 0, (true, true)), (pk 256, (false, false))] ++
        b3metas.map (fun a => (a.pubkey, (a.is_signer, a.is_writable))) := by
  have hb3 : b3.instructions = [⟨pk 256, b3metas, []⟩] := rfl
  rw [hb3]
  unfold buildAccountMap
  rw [List.foldl_cons, List.foldl_nil]
  unfold processInstruction
  have hins : orInsert [(pk 0, (true, true))] (pk 256) (false, false) =
      [(pk 0, (true, true)), (pk 256, (false, false))] := by
    unfold orInsert
    have : alistLookup [(pk 0, (true, true))] (pk 256) = none := by
      simp only [alistLookup]
      rw [if_neg (fun he => by have := pk_inj he; omega)]
    rw [this]
    rfl
  have hmem : ∀ a ∈ b3metas, ∃ j, j < 255 ∧ a = ⟨pk (j + 1), false, false⟩ := by
    intro a ha
    obtain ⟨j, hj, rfl⟩ := List.mem_map.mp ha
    exact ⟨j, List.mem_range.mp hj, rfl⟩
  have hnew : ∀ a ∈ b3metas,
      alistLookup [(pk 0, (true, true)), (pk 256, (false, false))] a.pubkey = none := by
    intro a ha
    obtain ⟨j, hj, rfl⟩ := hmem a ha
    simp only [alistLookup]
    rw [if_neg (fun he => by have := pk_inj he; omega),
      if_neg (fun he => by have := pk_inj he; omega)]
  have hnodup : (b3metas.map (·.pubkey)).Nodup := by
    have : b3metas.map (·.pubkey) = (List.range 255).map (fun j => pk (j + 1)) := by
      simp [b3metas, List.map_map]
    rw [this]
    exact (List.nodup_range 255).map fun x y h => by have := pk_inj h; omega
  dsimp only
  rw [hins, foldl_merge_all_new _ _ hnew hnodup]

/-- All 255 metas of `b3` are readonly-non-signers. -/
theorem countP_class3_metas :
    ((b3metas.map (fun a => (a.pubkey, (a.is_signer, a.is_writable)))).map
        (fun e => (e.1, e.2.1, e.2.2))).countP (fun e => !e.2.1 && !e.2.2) = 255 := by
  rw [List.map_map, List.countP_map]
  rw [List.countP_eq_length.mpr]
  · simp [b3metas]
  · intro a ha
    unfold b3metas at ha
    obtain ⟨j, hj, rfl⟩ := List.mem_map.mp ha
    rfl

/-- The ordered accounts of `b3`: 257 entries, 256 of them
readonly-non-signers (the program id plus the 255 metas). -/
theorem s3_facts :
    (sortedAccounts (pk 0) b3.instructions).length = 257 ∧
    (sortedAccounts (pk 0) b3.instructions).countP
      (fun e => !e.2.1 && !e.2.2) = 256 := by
  unfold sortedAccounts
  rw [buildAccountMap_b3]
  constructor
  · rw [length_sortAccounts, List.length_map, List.length_append, List.length_map]
    simp [b3metas]
  · rw [countP_sortAccounts, List.map_append, List.countP_append,
      countP_class3_metas]
    decide

theorem encode_compact_u16_length (v : Nat) :
    (encode_compact_u16 v).length =
      if v ≤ 0x7f then 1 else if v ≤ 0x3fff then 2 else 3 := by
  unfold encode_compact_u16
  split_ifs <;> rfl

theorem flatten_length_of_32 (l : List (List Nat)) (h : ∀ k ∈ l, k.length = 32) :
    l.flatten.length = l.length * 32 := by
  induction l with
  | nil => simp
  | cons k ks ih =>
      have hk : k.length = 32 := h k (by simp)
      have hrest := ih fun x hx => h x (by simp [hx])
      simp only [List.flatten_cons, List.length_append, hk, hrest, List.length_cons]
      ring

theorem instruction_byte_size_exact (i : CompiledInstruction)
    (hai : i.account_indices.length ≤ 0x3fff) (hd : i.data.length ≤ 0xffff) :
    i.byte_size = i.serialize_bytes.length := by
  unfold CompiledInstruction.byte_size CompiledInstruction.serialize_bytes
  rw [Nat.mod_eq_of_lt (show i.account_indices.length < 65536 by omega),
    Nat.mod_eq_of_lt (show i.data.length < 65536 by omega)]
  simp only [List.length_append, encode_u8, List.length_singleton,
    encode_compact_u16_length]
  split_ifs <;> omega

/-- Claim C5, amended: the precomputed byte size matches the serializer exactly
whenever the account-key count, instruction count and per-instruction
account-index count are at most 0x3fff (2-byte prefixes) and each payload
is at most 0xffff bytes; in particular for every protocol-conformant
message (at most 255 accounts). -/
theorem message_byte_size_exact (m : CompiledMessage)
    (hk : ∀ k ∈ m.account_keys, k.length = 32)
    (hbh : m.recent_blockhash.length = 32)
    (hkl : m.account_keys.length ≤ 0x3fff)
    (hil : m.instructions.length ≤ 0x3fff)
    (hix : ∀ i ∈ m.instructions,
      i.account_indices.length ≤ 0x3fff ∧ i.data.length ≤ 0xffff) :
    m.byte_size = m.serialize_bytes.length := by
  unfold CompiledMessage.byte_size CompiledMessage.serialize_bytes
    MessageHeader.byte_size MessageHeader.serialize_bytes
  have hmap : m.account_keys.map encode_pubkey = m.account_keys :=
    List.map_id' m.account_keys
  rw [hmap, Nat.mod_eq_of_lt (show m.account_keys.length < 65536 by omega),
    Nat.mod_eq_of_lt (show m.instructions.length < 65536 by omega)]
  have hsum : (m.instructions.map CompiledInstruction.serialize_bytes).flatten.length =
      (m.instructions.map CompiledInstruction.byte_size).sum := by
    rw [List.length_flatten, List.map_map]
    congr 1
    refine List.map_congr_left ?_
    intro i hi
    exact (instruction_byte_size_exact i (hix i hi).1 (hix i hi).2).symm
  simp only [List.length_append, encode_u8, encode_pubkey, List.length_singleton,
    encode_compact_u16_length, flatten_length_of_32 _ hk, hbh, hsum]
  split_ifs <;> omega

/-- An instruction with 16384 account indices makes `byte_size` undercount
by one: stated over an abstract index list so every rewrite is symbolic. -/
theorem byte_size_off_by_one (ai : List Nat) (hai : ai.length = 16384) :
    (CompiledMessage.mk ⟨0, 0, 0⟩ [] (List.replicate 32 0) [⟨0, ai, []⟩]).byte_size
        = 16425 ∧
    (CompiledMessage.mk ⟨0, 0, 0⟩ [] (List.replicate 32 0)
        [⟨0, ai, []⟩]).serialize_bytes.length = 16426 := by
  constructor
  · simp only [CompiledMessage.byte_size, CompiledInstruction.byte_size,
      MessageHeader.byte_size, hai, List.length_nil, List.length_cons,
      List.map_cons, List.map_nil, List.sum_cons, List.sum_nil]
    norm_num
  · simp only [CompiledMessage.serialize_bytes, CompiledInstruction.serialize_bytes,
      MessageHeader.serialize_bytes, encode_u8, encode_pubkey, List.map_cons,
      List.map_nil, List.flatten_cons, List.flatten_nil, List.append_nil,
      List.length_append, List.length_replicate, hai, List.length_nil,
      List.length_cons, encode_compact_u16_length]
    norm_num

/-- Counterexample for C5: a message whose single instruction has 0x4000
account indices (3-byte length prefix on the wire, but `byte_size` only
accounts for 2): the precomputed size is 16425 while the serializer
produces 16426 bytes. -/
theorem m5_byte_size_mismatch :
    m5.byte_size = 16425 ∧ m5.serialize_bytes.length = 16426 :=
  byte_size_off_by_one (List.replicate 16384 0) (List.length_replicate 16384 0)

theorem countP_signer_classes_le (l : List (List Nat × Bool × Bool)) :
    l.countP (fun e => e.2.1 && e.2.2) + l.countP (fun e => e.2.1 && !e.2.2) ≤
      l.length := by
  induction l with
  | nil => simp
  | cons e l ih =>
      obtain ⟨k, s, w⟩ := e
      simp only [List.countP_cons, List.length_cons]
      cases s <;> cases w <;> simp <;> omega

/-- Claim C6, amended: whenever the deduplicated account list fits the protocol
bound of 255 accounts, the compiled header fields are exactly the class
counts of the ordered accounts (class 0 writable-signer, class 1
readonly-signer, class 3 readonly-non-signer). -/
theorem compile_header_class_counts (b : TransactionBuilder) (m : CompiledMessage)
    (p : List Nat) (hp : b.payer = some p) (hc : b.compile = .ok m)
    (hlen : (sortedAccounts p b.instructions).length ≤ 255) :
    m.header.num_required_signatures =
      (sortedAccounts p b.instructions).countP (fun e => e.2.1 && e.2.2) +
        (sortedAccounts p b.instructions).countP (fun e => e.2.1 && !e.2.2) ∧
    m.header.num_readonly_signed_accounts =
      (sortedAccounts p b.instructions).countP (fun e => e.2.1 && !e.2.2) ∧
    m.header.num_readonly_unsigned_accounts =
      (sortedAccounts p b.instructions).countP (fun e => !e.2.1 && !e.2.2) := by
  obtain ⟨p', rb, hp', _, _, hhdr, _⟩ := compile_ok_inv b m hc
  have hpp : p' = p := Option.some.inj (hp'.symm.trans hp)
  subst hpp
  rw [hhdr]
  unfold compileHeader
  have h01 := countP_signer_classes_le (sortedAccounts p' b.instructions)
  have h1 : (sortedAccounts p' b.instructions).countP (fun e => e.2.1 && !e.2.2) ≤ 255 :=
    le_trans (List.countP_le_length _) hlen
  have h3 : (sortedAccounts p' b.instructions).countP (fun e => !e.2.1 && !e.2.2) ≤ 255 :=
    le_trans (List.countP_le_length _) hlen
  refine ⟨?_, ?_, ?_⟩ <;> dsimp only <;> omega

theorem compileHeader_nrou (l : List (List Nat × Bool × Bool)) :
    (compileHeader l).num_readonly_unsigned_accounts =
      (l.countP fun e => !e.2.1 && !e.2.2) % 256 := rfl

/-- Counterexample for C6: the 257-account compilation `b3` produces a header
whose `num_readonly_unsigned_accounts` is 0 although the ordered accounts
contain 256 readonly-non-signer entries (the `count() as u8` cast wraps). -/
theorem b3_header_count_mismatch :
    (TransactionBuilder.compile b3).toOption.map
        (fun m => m.header.num_readonly_unsigned_accounts) = some 0 ∧
    (sortedAccounts (pk 0) b3.instructions).countP
      (fun e => !e.2.1 && !e.2.2) = 256 := by
  refine ⟨?_, s3_facts.2⟩
  obtain ⟨m, hm, hhdr, _⟩ :=
    compile_ok b3 (pk 0) (List.replicate 32 9) rfl rfl (by decide)
  rw [hm]
  simp only [Except.toOption, Option.map_some']
  rw [hhdr, compileHeader_nrou, s3_facts.2]

/-- Claim C3, code bug: compiling an input with 257 distinct account keys
succeeds and produces a 257-key message instead of failing; no
`TooManyAccounts` error variant or account-count check exists in the code,
and the `i as u8` index cast wraps above 255. -/
theorem compile_257_accounts_succeeds :
    (TransactionBuilder.compile b3).toOption.map
        (fun m => m.account_keys.length) = some 257 := by
  obtain ⟨m, hm, _, hkeys⟩ :=
    compile_ok b3 (pk 0) (List.replicate 32 9) rfl rfl (by decide)
  rw [hm]
  simp only [Except.toOption, Option.map_some']
  rw [hkeys, List.length_map, s3_facts.1]

/-- Claim C4, code bug: with payer `[2; 32]` and another writable signer `[1; 32]`, the
compiled account list starts with `[1; 32]`: the payer is sorted like any
other writable signer and ends up at index 1, not index 0. -/
theorem payer_not_first_b4 :
    (TransactionBuilder.compile b4).toOption.map
        (fun m => (m.account_keys.take 2, m.header.num_required_signatures)) =
      some ([List.replicate 32 1, List.replicate 32 2], 2) := rfl

/-- Claim C8: `build_unsigned` fails exactly when the payer is unset, the recency
token is unset, or the instruction list is empty, and then with an
`InvalidTransaction` error; on success the signature list has
`num_required_signatures` slots, each 64 zero bytes. -/
theorem build_unsigned_spec (b : TransactionBuilder) :
    match b.build_unsigned with
    | .error e => (∃ s, e = .InvalidTransaction s) ∧
        (b.payer = none ∨ b.recent_blockhash = none ∨ b.instructions = [])
    | .ok t => b.payer ≠ none ∧ b.recent_blockhash ≠ none ∧ b.instructions ≠ [] ∧
        t.signatures =
          List.replicate t.message.header.num_required_signatures
            (List.replicate 64 0) := by
  unfold TransactionBuilder.build_unsigned
  cases hp : b.payer with
  | none =>
      have hcomp : b.compile = .error (.InvalidTransaction "Payer not set") := by
        unfold TransactionBuilder.compile
        rw [hp]
      rw [hcomp]
      exact ⟨⟨_, rfl⟩, Or.inl rfl⟩
  | some p =>
      cases hrb : b.recent_blockhash with
      | none =>
          have hcomp : b.compile =
              .error (.InvalidTransaction "Recent blockhash not set") := by
            unfold TransactionBuilder.compile
            rw [hp, hrb]
          rw [hcomp]
          exact ⟨⟨_, rfl⟩, Or.inr (Or.inl rfl)⟩
      | some rb =>
          by_cases hne : b.instructions = []
          · have hcomp : b.compile =
                .error (.InvalidTransaction "No instructions provided") := by
              unfold TransactionBuilder.compile
              rw [hp, hrb]
              dsimp only
              rw [if_pos hne]
            rw [hcomp]
            exact ⟨⟨_, rfl⟩, Or.inr (Or.inr hne)⟩
          · obtain ⟨m, hm, _, _⟩ := compile_ok b p rb hp hrb hne
            rw [hm]
            exact ⟨by simp [hp], by simp [hrb], hne, rfl⟩

/-- Claim C9, amended: in every successfully compiled message, the program-id
index and every account index of every instruction are strictly below the
account-key count.  (Deserialization performs no such validation.) -/
theorem compile_indices_bounded (b : TransactionBuilder) (m : CompiledMessage)
    (hc : b.compile = .ok m) :
    ∀ ci ∈ m.instructions, ci.program_id_index < m.account_keys.length ∧
      ∀ v ∈ ci.account_indices, v < m.account_keys.length := by
  obtain ⟨p, rb, _, _, _, _, hkeys, _, hall⟩ := compile_ok_inv b m hc
  intro ci hci
  obtain ⟨ix, hix⟩ := compileAll_ok_inv _ _ _ hall ci hci
  obtain ⟨hpl, hrl⟩ := compileOne_ok_inv _ _ _ hix
  rw [hkeys]
  constructor
  · have h := indexMap_lookup_lt _ _ _ hpl
    rwa [List.length_map] at h ⊢
  · intro v hv
    obtain ⟨k, hk⟩ := resolveIndices_ok_inv _ _ _ hrl v hv
    have h := indexMap_lookup_lt _ _ _ hk
    rwa [List.length_map] at h ⊢

/-- Counterexample for C9: a buffer that deserializes successfully to a message
with a single account key whose instruction names program-id index 5; the
decoder never checks indices against the key list. -/
theorem deserialize_unchecked_index :
    (CompiledTransaction.deserialize c9buf).toOption.map
        (fun t => (t.message.account_keys.length,
          t.message.instructions.map (·.program_id_index))) = some (1, [5]) := rfl

/-- Claim C10: the compact-u16 decoder accepts the non-canonical two-byte
encoding `[0x80, 0x00]` of 0 (so decoding is not injective on byte
strings), while `decode(encode(v)) = v` holds for every representable
value. -/
theorem compact_u16_non_canonical :
    (decode_compact_u16 [128, 0] = .ok (0, []) ∧
      decode_compact_u16 [0] = .ok (0, []) ∧
      encode_compact_u16 0 ≠ [128, 0]) ∧
    ∀ v : Nat, v < 65536 →
      decode_compact_u16 (encode_compact_u16 v) = .ok (v, []) := by
  refine ⟨⟨rfl, rfl, by decide⟩, ?_⟩
  intro v hv
  have h := decode_encode_compact_u16 v hv []
  rwa [List.append_nil] at h

/-- Witness for C10: the round-trip instantiated at 300 (a two-byte value). -/
theorem compact_u16_non_canonical_witness :
    decode_compact_u16 (encode_compact_u16 300) = .ok (300, []) :=
  compact_u16_non_canonical.2 300 (by decide)

set_option maxRecDepth 10000 in
/-- Claim C2 (code bug): deserializing the serialization of `tW` truncated
one byte before the final instruction's payload hits the unchecked slice
access `data_bytes[position..position + data_len]` and panics, instead of
returning a truncated-input error. -/
theorem deserialize_truncated_panics :
    CompiledTransaction.deserialize tW.serialize.dropLast =
      .error .sliceOutOfRange := rfl

/-- Witness for C1: the round-trip theorem applied to the concrete valid
transaction `tW`. -/
theorem deserialize_serialize_roundtrip_witness :
    ValidTransaction tW ∧ CompiledTransaction.deserialize tW.serialize = .ok tW :=
  ⟨by decide, deserialize_serialize_roundtrip tW (by decide)⟩

/-- Witness for C5: size exactness applied to the concrete message `mW`. -/
theorem message_byte_size_exact_witness :
    mW.byte_size = mW.serialize_bytes.length :=
  message_byte_size_exact mW (by decide) (by decide) (by decide) (by decide)
    (by decide)

/-- Witness for C6: the header-count theorem applied to the concrete
builder `bW` and its compiled message `mW`. -/
theorem compile_header_class_counts_witness :
    mW.header.num_required_signatures =
      (sortedAccounts payerW bW.instructions).countP (fun e => e.2.1 && e.2.2) +
        (sortedAccounts payerW bW.instructions).countP (fun e => e.2.1 && !e.2.2) ∧
    mW.header.num_readonly_signed_accounts =
      (sortedAccounts payerW bW.instructions).countP (fun e => e.2.1 && !e.2.2) ∧
    mW.header.num_readonly_unsigned_accounts =
      (sortedAccounts payerW bW.instructions).countP (fun e => !e.2.1 && !e.2.2) :=
  compile_header_class_counts bW mW payerW rfl rfl (by decide)

/-- Witness for C9: the index-bound theorem applied to the concrete
compilation `bW ↦ mW` and its single instruction. -/
theorem compile_indices_bounded_witness :
    (⟨1, [0], [42]⟩ : CompiledInstruction).program_id_index <
      mW.account_keys.length :=
  (compile_indices_bounded bW mW rfl ⟨1, [0], [42]⟩ (List.mem_singleton.mpr rfl)).1
